import Mathlib

/-!
Shallow embedding of the arbitrary-precision integer / rational library
(`Integer.h` / `Integer.cpp` / `Rational.h` / `Rational.cpp`).

`Integer` stores base-100 digits least-significant first in `digits`
(`std::vector<DigitType>`) together with a `sign` flag (`true` = negative).
All operations below are translated directly from the C++ source.
-/

structure Integer where
  sign : Bool
  digits : List Nat
  deriving DecidableEq, Repr

/-- `magNat l` is the numeric value of a base-100 digit sequence stored
least-significant first (the "magnitude" of the data model). -/
def magNat : List Nat → Nat
  | [] => 0
  | d :: rest => d + 100 * magNat rest

/-- Digit-range part of the data-model invariant: each stored digit is in `[0, 100)`. -/
def DigitsOk (l : List Nat) : Prop := ∀ d ∈ l, d < 100

instance (l : List Nat) : Decidable (DigitsOk l) :=
  List.decidableBAll _ l

/-- Canonical form of an `Integer` (the invariant documented in `Integer.h`):
digits in range, no trailing (most-significant) zero digit, and the value zero
is an empty digit vector with `sign = false`. -/
def Canonical (i : Integer) : Prop :=
  DigitsOk i.digits ∧ i.digits.getLast? ≠ some 0 ∧ (i.digits = [] → i.sign = false)

instance (i : Integer) : Decidable (Canonical i) :=
  inferInstanceAs (Decidable (_ ∧ _ ∧ _))

/-- The `while (digits.size() > 1 && digits.back() == 0) pop_back()` loop of
`Integer::normalize`, expressed on the reversed (most-significant-first) list:
drop leading zeros while more than one digit remains. -/
def dropLeadZeros : List Nat → List Nat
  | [] => []
  | d :: rest => if d = 0 ∧ rest ≠ [] then dropLeadZeros rest else d :: rest

/-- Strip trailing (most-significant) zero digits of an LSF digit vector,
keeping at least one digit when the vector is non-empty. -/
def trimBack (l : List Nat) : List Nat :=
  (dropLeadZeros l.reverse).reverse

/-- `Integer::normalize()`: strip trailing zeros; canonical zero becomes the
empty vector with `sign = false`. -/
def normInt (i : Integer) : Integer :=
  let ds := trimBack i.digits
  if ds = [] ∨ ds = [0] then ⟨false, []⟩ else ⟨i.sign, ds⟩

-- ------------------------------------------------------------------
-- Basic magnitude lemmas
-- ------------------------------------------------------------------

theorem magNat_append (u v : List Nat) :
    magNat (u ++ v) = magNat u + 100 ^ u.length * magNat v := by
  induction u with
  | nil => simp [magNat]
  | cons d rest ih =>
      simp [magNat, ih, pow_succ, List.length_cons]
      ring

theorem magNat_eq_zero_iff (l : List Nat) : magNat l = 0 ↔ ∀ d ∈ l, d = 0 := by
  induction l with
  | nil => simp [magNat]
  | cons d rest ih =>
      simp [magNat, ih]

theorem magNat_lt_pow (l : List Nat) (h : DigitsOk l) :
    magNat l < 100 ^ l.length := by
  induction l with
  | nil => simp [magNat]
  | cons d rest ih =>
      have hd : d < 100 := h d (List.mem_cons_self _ _)
      have hrest : DigitsOk rest := fun x hx => h x (List.mem_cons_of_mem _ hx)
      have := ih hrest
      simp only [magNat, List.length_cons, pow_succ]
      calc d + 100 * magNat rest < 100 + 100 * magNat rest := by omega
        _ ≤ 100 * (magNat rest + 1) := by ring_nf; omega
        _ ≤ 100 ^ rest.length * 100 := by
            have : magNat rest + 1 ≤ 100 ^ rest.length := this
            calc 100 * (magNat rest + 1) ≤ 100 * 100 ^ rest.length := by omega
              _ = 100 ^ rest.length * 100 := by ring

theorem pow_le_magNat (l : List Nat) (h : l.getLast? ≠ some 0) (hne : l ≠ []) :
    100 ^ (l.length - 1) ≤ magNat l := by
  induction l with
  | nil => exact absurd rfl hne
  | cons d rest ih =>
      cases rest with
      | nil =>
          simp only [List.getLast?_singleton, ne_eq, Option.some.injEq] at h
          simp [magNat]
          omega
      | cons e es =>
          have h' : (e :: es).getLast? ≠ some 0 := by
            rwa [List.getLast?_cons_cons] at h
          have hle := ih h' (by simp)
          simp only [magNat, List.length_cons, Nat.add_sub_cancel] at hle ⊢
          rw [pow_succ]
          omega

-- ------------------------------------------------------------------
-- trimBack / normInt lemmas
-- ------------------------------------------------------------------

theorem dropLeadZeros_mem {m : List Nat} {x : Nat} (hx : x ∈ dropLeadZeros m) : x ∈ m := by
  induction m with
  | nil => simp [dropLeadZeros] at hx
  | cons d rest ih =>
      by_cases h : d = 0 ∧ rest ≠ []
      · rw [dropLeadZeros, if_pos h] at hx
        exact List.mem_cons_of_mem _ (ih hx)
      · rw [dropLeadZeros, if_neg h] at hx
        exact hx

theorem magNat_reverse_dropLeadZeros (m : List Nat) :
    magNat (dropLeadZeros m).reverse = magNat m.reverse := by
  induction m with
  | nil => rfl
  | cons d rest ih =>
      by_cases h : d = 0 ∧ rest ≠ []
      · rw [dropLeadZeros, if_pos h, ih]
        simp [List.reverse_cons, magNat_append, magNat, h.1]
      · rw [dropLeadZeros, if_neg h]

theorem magNat_trimBack (l : List Nat) : magNat (trimBack l) = magNat l := by
  have := magNat_reverse_dropLeadZeros l.reverse
  rwa [List.reverse_reverse] at this

theorem dropLeadZeros_head {m : List Nat} (h : dropLeadZeros m ≠ [0]) :
    (dropLeadZeros m).head? ≠ some 0 := by
  induction m with
  | nil => simp [dropLeadZeros]
  | cons d rest ih =>
      by_cases hc : d = 0 ∧ rest ≠ []
      · rw [dropLeadZeros, if_pos hc] at h ⊢
        exact ih h
      · rw [dropLeadZeros, if_neg hc] at h ⊢
        rcases Decidable.not_and_iff_or_not.mp hc with hd | hr
        · simpa using hd
        · have hrest : rest = [] := Decidable.not_not.mp hr
          subst hrest
          intro hcontra
          simp only [List.head?_cons, Option.some.injEq] at hcontra
          exact h (by simp [hcontra])

theorem dropLeadZeros_all_zero {m : List Nat} (hz : ∀ d ∈ m, d = 0) (hne : m ≠ []) :
    dropLeadZeros m = [0] := by
  induction m with
  | nil => exact absurd rfl hne
  | cons d rest ih =>
      have hd : d = 0 := hz d (List.mem_cons_self _ _)
      by_cases hr : rest = []
      · subst hr
        rw [dropLeadZeros, if_neg (by simp), hd]
      · rw [dropLeadZeros, if_pos ⟨hd, hr⟩]
        exact ih (fun x hx => hz x (List.mem_cons_of_mem _ hx)) hr

theorem trimBack_of_getLast {l : List Nat} (h : l.getLast? ≠ some 0) : trimBack l = l := by
  unfold trimBack
  cases hl : l.reverse with
  | nil =>
      have : l = [] := by simpa using congrArg List.reverse hl
      simp [this, dropLeadZeros]
  | cons d rest =>
      have hd : l.getLast? = some d := by
        rw [← List.reverse_reverse l, hl, List.getLast?_reverse]
        rfl
      have hdne : d ≠ 0 := fun hc => h (hd ▸ hc ▸ rfl)
      rw [dropLeadZeros, if_neg (by simp [hdne]), ← hl, List.reverse_reverse]

theorem magNat_zero_of_trim {l : List Nat}
    (h : trimBack l = [] ∨ trimBack l = [0]) : magNat l = 0 := by
  rcases h with h | h
  · have := magNat_trimBack l
    rw [h] at this
    simpa [magNat] using this.symm
  · have := magNat_trimBack l
    rw [h] at this
    simpa [magNat] using this.symm

theorem trim_of_magNat_zero {l : List Nat} (h : magNat l = 0) :
    trimBack l = [] ∨ trimBack l = [0] := by
  rcases List.eq_nil_or_concat l.reverse with hl | ⟨_, _, _⟩
  · left
    have : l = [] := by simpa using congrArg List.reverse hl
    simp [this, trimBack, dropLeadZeros]
  · right
    have hne : l.reverse ≠ [] := by
      intro hc
      have : l = [] := by simpa using congrArg List.reverse hc
      subst this
      simp at *
    have hz : ∀ d ∈ l.reverse, d = 0 := by
      intro d hd
      have : ∀ x ∈ l, x = 0 := (magNat_eq_zero_iff l).mp h
      exact this d (List.mem_reverse.mp hd)
    unfold trimBack
    rw [dropLeadZeros_all_zero hz hne]
    rfl

theorem normInt_canonical (i : Integer) (h : DigitsOk i.digits) :
    Canonical (normInt i) := by
  unfold normInt
  by_cases hz : trimBack i.digits = [] ∨ trimBack i.digits = [0]
  · rw [if_pos hz]
    refine ⟨by intro d hd; simp at hd, by simp, fun _ => rfl⟩
  · rw [if_neg hz]
    push_neg at hz
    refine ⟨?_, ?_, ?_⟩
    · intro d hd
      have hd' : d ∈ dropLeadZeros i.digits.reverse := by
        simpa [trimBack] using hd
      exact h d (List.mem_reverse.mp (dropLeadZeros_mem hd'))
    · show (trimBack i.digits).getLast? ≠ some 0
      unfold trimBack
      rw [List.getLast?_reverse]
      apply dropLeadZeros_head
      intro hc
      exact hz.2 (by unfold trimBack; rw [hc]; rfl)
    · intro hc
      exact absurd hc hz.1

theorem normInt_magNat (i : Integer) : magNat (normInt i).digits = magNat i.digits := by
  unfold normInt
  by_cases hz : trimBack i.digits = [] ∨ trimBack i.digits = [0]
  · rw [if_pos hz]
    simp [magNat, magNat_zero_of_trim hz]
  · rw [if_neg hz]
    exact magNat_trimBack i.digits

theorem normInt_sign (i : Integer) (h : magNat i.digits ≠ 0) :
    (normInt i).sign = i.sign := by
  unfold normInt
  rw [if_neg]
  intro hc
  exact h (magNat_zero_of_trim hc)

theorem normInt_of_canonical {i : Integer} (h : Canonical i) : normInt i = i := by
  obtain ⟨_, hlast, hzs⟩ := h
  unfold normInt
  rw [trimBack_of_getLast hlast]
  by_cases hz : i.digits = [] ∨ i.digits = [0]
  · rw [if_pos hz]
    rcases hz with hz | hz
    · cases i
      simp_all
    · exact absurd (by rw [hz]; rfl) hlast
  · rw [if_neg hz]

-- ------------------------------------------------------------------
-- Integer operations, translated from Integer.cpp
-- ------------------------------------------------------------------

/-- The digit loop of `Integer::compareMagnitude`, on most-significant-first
lists of equal length: return at the first differing digit. -/
def cmpMSF : List Nat → List Nat → Int
  | x :: xs, y :: ys => if x < y then -1 else if y < x then 1 else cmpMSF xs ys
  | _, _ => 0

/-- `Integer::compareMagnitude(a,b)`: compare digit counts first, then the
digits from most significant down. -/
def compareMagnitude (a b : Integer) : Int :=
  if a.digits.length < b.digits.length then -1
  else if b.digits.length < a.digits.length then 1
  else cmpMSF a.digits.reverse b.digits.reverse

/-- Tail of the `addMagnitude` loop once the first operand's digits are
exhausted: keep adding the carry through the remaining digits, then push a
final non-zero carry. -/
def addTail : List Nat → Nat → List Nat
  | [], c => if c = 0 then [] else [c]
  | y :: ys, c => ((y + c) % 100) :: addTail ys ((y + c) / 100)

/-- The carry-propagating digit loop of `Integer::addMagnitude`. -/
def addDigits : List Nat → List Nat → Nat → List Nat
  | [], ys, c => addTail ys c
  | x :: xs, ys, c =>
      ((x + ys.headD 0 + c) % 100) :: addDigits xs ys.tail ((x + ys.headD 0 + c) / 100)

/-- `Integer::addMagnitude(a,b)`: |a|+|b| with `sign = false`.  The result is
built through the `(sign, vector)` constructor (which normalizes) and then
normalized once more, as in the source. -/
def addMagnitude (a b : Integer) : Integer :=
  normInt (normInt ⟨false, addDigits a.digits b.digits 0⟩)

/-- The borrow-propagating digit loop of `Integer::subtractMagnitude`; the loop
runs over the first operand's digits only and also returns the final borrow. -/
def subDigits : List Nat → List Nat → Nat → List Nat × Nat
  | [], _, borrow => ([], borrow)
  | x :: xs, ys, borrow =>
      let diff : Int := (x : Int) - (borrow : Int) - (ys.headD 0 : Int)
      let dig : Nat := if diff < 0 then (diff + 100).toNat else diff.toNat
      let b : Nat := if diff < 0 then 1 else 0
      let r := subDigits xs ys.tail b
      (dig :: r.1, r.2)

/-- `Integer::subtractMagnitude(a,b)`: |a|-|b| assuming `|a| >= |b|`,
with `sign = false`; constructor-normalized and then normalized again. -/
def subtractMagnitude (a b : Integer) : Integer :=
  normInt (normInt ⟨false, (subDigits a.digits b.digits 0).1⟩)

/-- `Integer::isZero()`: the digit vector is empty. -/
def isZero (i : Integer) : Bool := i.digits.isEmpty

/-- Unary `Integer::operator-`: flip the sign unless the value is zero. -/
def intNeg (i : Integer) : Integer :=
  if isZero i then i else ⟨!i.sign, i.digits⟩

/-- `Integer::operator+`: sign handling over the magnitude helpers. -/
def intAdd (a b : Integer) : Integer :=
  if a.sign = b.sign then
    normInt ⟨a.sign, (addMagnitude a b).digits⟩
  else
    let cmp := compareMagnitude a b
    if cmp = 0 then ⟨false, []⟩
    else if 0 < cmp then
      normInt ⟨a.sign, (subtractMagnitude a b).digits⟩
    else
      normInt ⟨b.sign, (subtractMagnitude b a).digits⟩

/-- `Integer::operator-`: addition of the negation. -/
def intSub (a b : Integer) : Integer := intAdd a (intNeg b)

/-- `Integer::isNegative()`. -/
def isNegative (i : Integer) : Bool := i.sign && !(isZero i)

/-- `Integer::signum()`. -/
def signum (i : Integer) : Int :=
  if isZero i then 0 else if i.sign then -1 else 1

/-- `Integer::abs()`. -/
def intAbs (i : Integer) : Integer := if i.sign then intNeg i else i

/-- `Integer::operator==`: two zeros are equal; otherwise signs and digit
vectors must agree. -/
def intEq (a b : Integer) : Bool :=
  if isZero a && isZero b then true
  else if a.sign != b.sign then false
  else a.digits == b.digits

/-- `Integer::operator!=`. -/
def intNe (a b : Integer) : Bool := !(intEq a b)

/-- `Integer::operator<`: sign first, equal zeros, then magnitude adjusted
for sign. -/
def intLt (a b : Integer) : Bool :=
  if a.sign && !b.sign then true
  else if !a.sign && b.sign then false
  else if isZero a && isZero b then false
  else if a.sign then decide (0 < compareMagnitude a b)
  else decide (compareMagnitude a b < 0)

/-- `Integer::operator>`. -/
def intGt (a b : Integer) : Bool := intLt b a

/-- `Integer::operator<=`. -/
def intLe (a b : Integer) : Bool := !(intGt a b)

/-- `Integer::operator>=`. -/
def intGe (a b : Integer) : Bool := !(intLt a b)

-- ------------------------------------------------------------------
-- addDigits / subDigits semantics
-- ------------------------------------------------------------------

theorem magNat_headD_tail (l : List Nat) :
    magNat l = l.headD 0 + 100 * magNat l.tail := by
  cases l <;> simp [magNat]

theorem magNat_addTail (ys : List Nat) (c : Nat) :
    magNat (addTail ys c) = magNat ys + c := by
  induction ys generalizing c with
  | nil =>
      by_cases h : c = 0 <;> simp [addTail, h, magNat]
  | cons y ys ih =>
      simp only [addTail, magNat, ih]
      omega

theorem magNat_addDigits (xs ys : List Nat) (c : Nat) :
    magNat (addDigits xs ys c) = magNat xs + magNat ys + c := by
  induction xs generalizing ys c with
  | nil => simp [addDigits, magNat_addTail, magNat]
  | cons x xs ih =>
      simp only [addDigits, magNat, ih]
      have := magNat_headD_tail ys
      omega

theorem addTail_digitsOk {ys : List Nat} {c : Nat} (hy : DigitsOk ys) (hc : c ≤ 1) :
    DigitsOk (addTail ys c) := by
  induction ys generalizing c with
  | nil =>
      by_cases h : c = 0
      · simp [addTail, h, DigitsOk]
      · intro d hd
        simp [addTail, h] at hd
        omega
  | cons y ys ih =>
      intro d hd
      have hy0 : y < 100 := hy y (List.mem_cons_self _ _)
      simp only [addTail, List.mem_cons] at hd
      rcases hd with hd | hd
      · omega
      · have hys : DigitsOk ys := fun x hx => hy x (List.mem_cons_of_mem _ hx)
        exact ih hys (by omega) d hd

theorem addDigits_digitsOk {xs ys : List Nat} {c : Nat}
    (hx : DigitsOk xs) (hy : DigitsOk ys) (hc : c ≤ 1) :
    DigitsOk (addDigits xs ys c) := by
  induction xs generalizing ys c with
  | nil => exact addTail_digitsOk hy hc
  | cons x xs ih =>
      intro d hd
      have hx0 : x < 100 := hx x (List.mem_cons_self _ _)
      have hy0 : ys.headD 0 < 100 := by
        cases ys with
        | nil => simp
        | cons y ys => exact hy y (List.mem_cons_self _ _)
      simp only [addDigits, List.mem_cons] at hd
      rcases hd with hd | hd
      · omega
      · have hxs : DigitsOk xs := fun z hz => hx z (List.mem_cons_of_mem _ hz)
        have hyt : DigitsOk ys.tail := by
          intro z hz
          exact hy z (List.mem_of_mem_tail hz)
        exact ih hxs hyt (by omega) d hd

theorem subDigits_length (xs ys : List Nat) (b : Nat) :
    (subDigits xs ys b).1.length = xs.length := by
  induction xs generalizing ys b with
  | nil => simp [subDigits]
  | cons x xs ih => simp [subDigits, ih]

theorem subDigits_borrow_le {xs ys : List Nat} {b : Nat} (hb : b ≤ 1) :
    (subDigits xs ys b).2 ≤ 1 := by
  induction xs generalizing ys b with
  | nil => simpa [subDigits] using hb
  | cons x xs ih =>
      simp only [subDigits]
      split <;> exact ih (by omega)

theorem subDigits_digitsOk {xs ys : List Nat} {b : Nat}
    (hx : DigitsOk xs) (hy : DigitsOk ys) (hb : b ≤ 1) :
    DigitsOk (subDigits xs ys b).1 := by
  induction xs generalizing ys b with
  | nil => simp [subDigits, DigitsOk]
  | cons x xs ih =>
      intro d hd
      have hx0 : x < 100 := hx x (List.mem_cons_self _ _)
      have hy0 : ys.headD 0 < 100 := by
        cases ys with
        | nil => simp
        | cons y ys => exact hy y (List.mem_cons_self _ _)
      have hxs : DigitsOk xs := fun z hz => hx z (List.mem_cons_of_mem _ hz)
      have hyt : DigitsOk ys.tail := fun z hz => hy z (List.mem_of_mem_tail hz)
      simp only [subDigits, List.mem_cons] at hd
      rcases hd with hd | hd
      · subst hd
        split <;> omega
      · split at hd <;> exact ih hxs hyt (by omega) d hd

theorem subDigits_value (xs ys : List Nat) (b : Nat)
    (hy : DigitsOk ys) (hb : b ≤ 1) (hlen : ys.length ≤ xs.length) :
    (magNat (subDigits xs ys b).1 : Int)
      = (magNat xs : Int) - magNat ys - b
        + (subDigits xs ys b).2 * 100 ^ xs.length := by
  induction xs generalizing ys b with
  | nil =>
      have : ys = [] := List.eq_nil_of_length_eq_zero (Nat.le_zero.mp hlen)
      subst this
      simp [subDigits, magNat]
  | cons x xs ih =>
      have hy0 : ys.headD 0 ≤ 99 := by
        cases ys with
        | nil => simp
        | cons y ys => exact Nat.lt_succ_iff.mp (hy y (List.mem_cons_self _ _))
      have hyt : DigitsOk ys.tail := fun z hz => hy z (List.mem_of_mem_tail hz)
      have hlen' : ys.tail.length ≤ xs.length := by
        cases ys with
        | nil => simp
        | cons y ys => simpa using Nat.le_of_succ_le_succ (by simpa using hlen)
      have hmy : (magNat ys : Int) = ys.headD 0 + 100 * magNat ys.tail := by
        rw [magNat_headD_tail ys]
        push_cast
        ring
      simp only [subDigits, magNat]
      split
      · rename_i hneg
        have ihv := ih ys.tail 1 hyt (by omega) hlen'
        have hfb : (subDigits xs ys.tail 1).2 ≤ 1 := subDigits_borrow_le (by omega)
        rw [List.length_cons, pow_succ]
        push_cast
        push_cast at ihv
        rw [ihv]
        have htn : (((x : Int) - b - ys.headD 0 + 100).toNat : Int)
            = (x : Int) - b - ys.headD 0 + 100 := by
          rw [Int.toNat_of_nonneg]
          omega
        rw [htn]
        rcases Nat.le_one_iff_eq_zero_or_eq_one.mp hfb with h0 | h0 <;>
          rw [h0] <;>
          push_cast <;>
          generalize ((100 : Int) ^ xs.length) = P at * <;>
          omega
      · rename_i hpos
        have ihv := ih ys.tail 0 hyt (by omega) hlen'
        have hfb : (subDigits xs ys.tail 0).2 ≤ 1 := subDigits_borrow_le (by omega)
        rw [List.length_cons, pow_succ]
        push_cast
        push_cast at ihv
        rw [ihv]
        have htn : (((x : Int) - b - ys.headD 0).toNat : Int)
            = (x : Int) - b - ys.headD 0 := by
          rw [Int.toNat_of_nonneg]
          omega
        rw [htn]
        rcases Nat.le_one_iff_eq_zero_or_eq_one.mp hfb with h0 | h0 <;>
          rw [h0] <;>
          push_cast <;>
          generalize ((100 : Int) ^ xs.length) = P at * <;>
          omega

-- ------------------------------------------------------------------
-- compareMagnitude semantics
-- ------------------------------------------------------------------

theorem cmpMSF_vals (x y : List Nat) :
    cmpMSF x y = -1 ∨ cmpMSF x y = 0 ∨ cmpMSF x y = 1 := by
  induction x generalizing y with
  | nil => cases y <;> simp [cmpMSF]
  | cons a as ih =>
      cases y with
      | nil => simp [cmpMSF]
      | cons b bs =>
          simp only [cmpMSF]
          split
          · exact Or.inl rfl
          · split
            · exact Or.inr (Or.inr rfl)
            · exact ih bs

theorem cmpMSF_antisymm (x y : List Nat) : cmpMSF x y = -cmpMSF y x := by
  induction x generalizing y with
  | nil => cases y <;> simp [cmpMSF]
  | cons a as ih =>
      cases y with
      | nil => simp [cmpMSF]
      | cons b bs =>
          rcases Nat.lt_trichotomy a b with h | h | h
          · have h2 : ¬ b < a := by omega
            simp [cmpMSF, h, h2]
          · subst h
            simp only [cmpMSF, lt_irrefl, if_false, if_neg (lt_irrefl a)]
            exact ih bs
          · have h2 : ¬ a < b := by omega
            simp [cmpMSF, h, h2]

theorem cmpMSF_eq_zero {x y : List Nat} (hlen : x.length = y.length)
    (h : cmpMSF x y = 0) : x = y := by
  induction x generalizing y with
  | nil =>
      have : y = [] := List.eq_nil_of_length_eq_zero hlen.symm
      exact this.symm
  | cons a as ih =>
      cases y with
      | nil => simp at hlen
      | cons b bs =>
          simp only [cmpMSF] at h
          split at h
          · simp at h
          · split at h
            · simp at h
            · have hab : a = b := by omega
              have := ih (y := bs) (by simpa using hlen) h
              rw [hab, this]

theorem cmpMSF_lt {x y : List Nat} (hx : DigitsOk x) (hy : DigitsOk y)
    (hlen : x.length = y.length) (h : cmpMSF x y = -1) :
    magNat x.reverse < magNat y.reverse := by
  induction x generalizing y with
  | nil =>
      cases y with
      | nil => simp [cmpMSF] at h
      | cons b bs => simp at hlen
  | cons a as ih =>
      cases y with
      | nil => simp at hlen
      | cons b bs =>
          have hlen' : as.length = bs.length := by simpa using hlen
          have has : DigitsOk as := fun z hz => hx z (List.mem_cons_of_mem _ hz)
          have hbs : DigitsOk bs := fun z hz => hy z (List.mem_cons_of_mem _ hz)
          simp only [List.reverse_cons, magNat_append, List.length_reverse,
            magNat]
          simp only [cmpMSF] at h
          split at h
          · rename_i hab
            have hmas : magNat as.reverse < 100 ^ as.length := by
              have := magNat_lt_pow as.reverse
                (fun z hz => has z (List.mem_reverse.mp hz))
              simpa using this
            have hstep : magNat as.reverse + 100 ^ as.length * (a + 100 * 0)
                < 100 ^ as.length * (b + 100 * 0) := by
              simp only [Nat.mul_zero, Nat.add_zero]
              calc magNat as.reverse + 100 ^ as.length * a
                  < 100 ^ as.length + 100 ^ as.length * a := by omega
                _ = 100 ^ as.length * (a + 1) := by ring
                _ ≤ 100 ^ as.length * b := Nat.mul_le_mul_left _ (by omega)
              
            calc magNat as.reverse + 100 ^ as.length * (a + 100 * 0)
                < 100 ^ as.length * (b + 100 * 0) := hstep
              _ ≤ magNat bs.reverse + 100 ^ bs.length * (b + 100 * 0) := by
                  rw [hlen']
                  omega
          · split at h
            · simp at h
            · rename_i h1 h2
              have hab : a = b := by omega
              have := ih has hbs hlen' h
              rw [hab, hlen']
              omega

theorem compareMagnitude_lt {a b : Integer} (ha : Canonical a) (hb : Canonical b)
    (h : compareMagnitude a b = -1) : magNat a.digits < magNat b.digits := by
  unfold compareMagnitude at h
  split at h
  · rename_i hlen
    have hbne : b.digits ≠ [] := by
      intro hc
      rw [hc] at hlen
      simp at hlen
    have h1 : magNat a.digits < 100 ^ a.digits.length :=
      magNat_lt_pow _ ha.1
    have h2 : 100 ^ (b.digits.length - 1) ≤ magNat b.digits :=
      pow_le_magNat _ hb.2.1 hbne
    have h3 : 100 ^ a.digits.length ≤ 100 ^ (b.digits.length - 1) :=
      Nat.pow_le_pow_right (by norm_num) (by omega)
    omega
  · split at h
    · simp at h
    · rename_i h1 h2
      have hlen : a.digits.reverse.length = b.digits.reverse.length := by
        simp
        omega
      have := cmpMSF_lt (x := a.digits.reverse) (y := b.digits.reverse)
        (fun z hz => ha.1 z (List.mem_reverse.mp hz))
        (fun z hz => hb.1 z (List.mem_reverse.mp hz)) hlen h
      simpa using this

theorem compareMagnitude_antisymm (a b : Integer) :
    compareMagnitude a b = -compareMagnitude b a := by
  unfold compareMagnitude
  rcases Nat.lt_trichotomy a.digits.length b.digits.length with h | h | h
  · have h2 : ¬ b.digits.length < a.digits.length := by omega
    simp [h, h2]
  · rw [if_neg (by omega), if_neg (by omega), if_neg (by omega),
      if_neg (by omega)]
    exact cmpMSF_antisymm _ _
  · have h2 : ¬ a.digits.length < b.digits.length := by omega
    simp [h, h2]

theorem compareMagnitude_gt {a b : Integer} (ha : Canonical a) (hb : Canonical b)
    (h : compareMagnitude a b = 1) : magNat b.digits < magNat a.digits := by
  apply compareMagnitude_lt hb ha
  rw [compareMagnitude_antisymm, h]

theorem compareMagnitude_vals (a b : Integer) :
    compareMagnitude a b = -1 ∨ compareMagnitude a b = 0 ∨
      compareMagnitude a b = 1 := by
  unfold compareMagnitude
  split
  · exact Or.inl rfl
  · split
    · exact Or.inr (Or.inr rfl)
    · exact cmpMSF_vals _ _

theorem compareMagnitude_eq {a b : Integer}
    (h : compareMagnitude a b = 0) : a.digits = b.digits := by
  unfold compareMagnitude at h
  split at h
  · simp at h
  · split at h
    · simp at h
    · rename_i h1 h2
      have hlen : a.digits.reverse.length = b.digits.reverse.length := by
        simp
        omega
      have := cmpMSF_eq_zero hlen h
      have := congrArg List.reverse this
      simpa using this

theorem compareMagnitude_spec (a b : Integer) (ha : Canonical a) (hb : Canonical b) :
    (compareMagnitude a b = -1 ↔ magNat a.digits < magNat b.digits) ∧
    (compareMagnitude a b = 0 ↔ magNat a.digits = magNat b.digits) ∧
    (compareMagnitude a b = 1 ↔ magNat b.digits < magNat a.digits) := by
  have hmono : ∀ {u v : Integer}, Canonical u → Canonical v →
      magNat u.digits = magNat v.digits → compareMagnitude u v = 0 := by
    intro u v hu hv hmag
    rcases compareMagnitude_vals u v with h | h | h
    · have := compareMagnitude_lt hu hv h
      omega
    · exact h
    · have := compareMagnitude_gt hu hv h
      omega
  refine ⟨⟨fun h => compareMagnitude_lt ha hb h, fun h => ?_⟩,
    ⟨fun h => by rw [compareMagnitude_eq h], fun h => hmono ha hb h⟩,
    ⟨fun h => compareMagnitude_gt ha hb h, fun h => ?_⟩⟩
  · rcases compareMagnitude_vals a b with h' | h' | h'
    · exact h'
    · rw [compareMagnitude_eq h'] at h
      omega
    · have := compareMagnitude_gt ha hb h'
      omega
  · rcases compareMagnitude_vals a b with h' | h' | h'
    · have := compareMagnitude_lt ha hb h'
      omega
    · rw [compareMagnitude_eq h'] at h
      omega
    · exact h'

-- ------------------------------------------------------------------
-- addMagnitude / subtractMagnitude / intAdd semantics
-- ------------------------------------------------------------------

theorem canonical_digits_of_magNat_zero {i : Integer} (h : Canonical i)
    (hz : magNat i.digits = 0) : i.digits = [] := by
  by_contra hne
  have := pow_le_magNat i.digits h.2.1 hne
  have : (1 : Nat) ≤ magNat i.digits := le_trans (Nat.one_le_pow _ _ (by norm_num)) this
  omega

theorem magNat_pos_of_ne_nil {i : Integer} (h : Canonical i)
    (hne : i.digits ≠ []) : 0 < magNat i.digits := by
  have := pow_le_magNat i.digits h.2.1 hne
  have := Nat.one_le_pow (i.digits.length - 1) 100 (by norm_num)
  omega

theorem addMagnitude_magNat (a b : Integer) :
    magNat (addMagnitude a b).digits = magNat a.digits + magNat b.digits := by
  unfold addMagnitude
  rw [normInt_magNat, normInt_magNat]
  simpa using magNat_addDigits a.digits b.digits 0

theorem addMagnitude_canonical {a b : Integer}
    (ha : DigitsOk a.digits) (hb : DigitsOk b.digits) :
    Canonical (addMagnitude a b) := by
  unfold addMagnitude
  exact normInt_canonical _ (normInt_canonical _ (addDigits_digitsOk ha hb (by omega))).1

theorem canonical_len_le_of_magNat_le {a b : Integer} (ha : Canonical a)
    (hb : Canonical b) (h : magNat b.digits ≤ magNat a.digits) :
    b.digits.length ≤ a.digits.length := by
  by_contra hlt
  push_neg at hlt
  have hbne : b.digits ≠ [] := by
    intro hc
    rw [hc] at hlt
    simp at hlt
  have h1 : 100 ^ (b.digits.length - 1) ≤ magNat b.digits :=
    pow_le_magNat _ hb.2.1 hbne
  have h2 : magNat a.digits < 100 ^ a.digits.length := magNat_lt_pow _ ha.1
  have h3 : 100 ^ a.digits.length ≤ 100 ^ (b.digits.length - 1) := by
    apply Nat.pow_le_pow_right
    · norm_num
    · omega
  omega

theorem subtractMagnitude_spec {a b : Integer} (ha : Canonical a) (hb : Canonical b)
    (hle : magNat b.digits ≤ magNat a.digits) :
    Canonical (subtractMagnitude a b) ∧
    magNat (subtractMagnitude a b).digits = magNat a.digits - magNat b.digits ∧
    (subDigits a.digits b.digits 0).2 = 0 := by
  have hlen : b.digits.length ≤ a.digits.length :=
    canonical_len_le_of_magNat_le ha hb hle
  have hres : DigitsOk (subDigits a.digits b.digits 0).1 :=
    subDigits_digitsOk ha.1 hb.1 (by omega)
  have hval := subDigits_value a.digits b.digits 0 hb.1 (by omega) hlen
  have hfb : (subDigits a.digits b.digits 0).2 ≤ 1 :=
    subDigits_borrow_le (by omega)
  have hreslen : (subDigits a.digits b.digits 0).1.length = a.digits.length :=
    subDigits_length _ _ _
  have hresbound : magNat (subDigits a.digits b.digits 0).1 < 100 ^ a.digits.length := by
    have := magNat_lt_pow _ hres
    rwa [hreslen] at this
  have habound : magNat a.digits < 100 ^ a.digits.length := magNat_lt_pow _ ha.1
  have hfb0 : (subDigits a.digits b.digits 0).2 = 0 := by
    rcases Nat.le_one_iff_eq_zero_or_eq_one.mp hfb with h0 | h1
    · exact h0
    · exfalso
      rw [h1] at hval
      have hP : (0 : Int) ≤ 100 ^ a.digits.length := by positivity
      have hP2 : (magNat a.digits : Int) < (100 : Int) ^ a.digits.length := by
        exact_mod_cast habound
      have hP3 : (magNat (subDigits a.digits b.digits 0).1 : Int)
          < (100 : Int) ^ a.digits.length := by
        exact_mod_cast hresbound
      have hle' : (magNat b.digits : Int) ≤ (magNat a.digits : Int) := by
        exact_mod_cast hle
      rw [hval] at hP3
      generalize ((100 : Int) ^ a.digits.length) = P at *
      omega
  have hmag : magNat (subDigits a.digits b.digits 0).1
      = magNat a.digits - magNat b.digits := by
    rw [hfb0] at hval
    simp at hval
    omega
  refine ⟨?_, ?_, hfb0⟩
  · unfold subtractMagnitude
    exact normInt_canonical _ (normInt_canonical _ hres).1
  · unfold subtractMagnitude
    rw [normInt_magNat, normInt_magNat]
    exact hmag

theorem normInt_of_magNat_zero (i : Integer) (h : magNat i.digits = 0) :
    normInt i = ⟨false, []⟩ := by
  unfold normInt
  rcases trim_of_magNat_zero h with h' | h' <;> simp [h']

theorem intAdd_same_sign {a b : Integer} (ha : Canonical a) (_hb : Canonical b)
    (hs : a.sign = b.sign) :
    (intAdd a b).sign = a.sign ∧
    magNat (intAdd a b).digits = magNat a.digits + magNat b.digits := by
  have hmag : magNat (addMagnitude a b).digits = magNat a.digits + magNat b.digits :=
    addMagnitude_magNat a b
  unfold intAdd
  rw [if_pos hs]
  constructor
  · by_cases hz : magNat a.digits + magNat b.digits = 0
    · have hza : a.digits = [] := canonical_digits_of_magNat_zero ha (by omega)
      have hsa : a.sign = false := ha.2.2 hza
      rw [normInt_of_magNat_zero _ (by show magNat (addMagnitude a b).digits = 0; omega)]
      rw [hsa]
    · have := normInt_sign ⟨a.sign, (addMagnitude a b).digits⟩ (by
        show magNat (addMagnitude a b).digits ≠ 0
        omega)
      rw [this]
  · rw [normInt_magNat]
    exact hmag

theorem intAdd_same_sign_canonical {a b : Integer} (ha : Canonical a)
    (hb : Canonical b) (hs : a.sign = b.sign) : Canonical (intAdd a b) := by
  unfold intAdd
  rw [if_pos hs]
  exact normInt_canonical _ (addMagnitude_canonical ha.1 hb.1).1

theorem intAdd_diff_sign_gt {a b : Integer} (ha : Canonical a) (hb : Canonical b)
    (hs : ¬a.sign = b.sign) (hgt : magNat b.digits < magNat a.digits) :
    (intAdd a b).sign = a.sign ∧
    magNat (intAdd a b).digits = magNat a.digits - magNat b.digits := by
  have hcmp : compareMagnitude a b = 1 :=
    ((compareMagnitude_spec a b ha hb).2.2).mpr hgt
  have hsub := subtractMagnitude_spec ha hb (le_of_lt hgt)
  unfold intAdd
  rw [if_neg hs]
  simp only [hcmp]
  rw [if_neg (by norm_num), if_pos (by norm_num)]
  constructor
  · apply normInt_sign
    show magNat (subtractMagnitude a b).digits ≠ 0
    rw [hsub.2.1]
    omega
  · rw [normInt_magNat]
    exact hsub.2.1

theorem intAdd_diff_sign_lt {a b : Integer} (ha : Canonical a) (hb : Canonical b)
    (hs : ¬a.sign = b.sign) (hlt : magNat a.digits < magNat b.digits) :
    (intAdd a b).sign = b.sign ∧
    magNat (intAdd a b).digits = magNat b.digits - magNat a.digits := by
  have hcmp : compareMagnitude a b = -1 :=
    ((compareMagnitude_spec a b ha hb).1).mpr hlt
  have hsub := subtractMagnitude_spec hb ha (le_of_lt hlt)
  unfold intAdd
  rw [if_neg hs]
  simp only [hcmp]
  rw [if_neg (by norm_num), if_neg (by norm_num)]
  constructor
  · apply normInt_sign
    show magNat (subtractMagnitude b a).digits ≠ 0
    rw [hsub.2.1]
    omega
  · rw [normInt_magNat]
    exact hsub.2.1

theorem intAdd_diff_sign_eq {a b : Integer} (ha : Canonical a) (hb : Canonical b)
    (hs : ¬a.sign = b.sign) (heq : magNat a.digits = magNat b.digits) :
    intAdd a b = ⟨false, []⟩ := by
  have hcmp : compareMagnitude a b = 0 :=
    ((compareMagnitude_spec a b ha hb).2.1).mpr heq
  unfold intAdd
  rw [if_neg hs]
  simp only [hcmp]
  simp

theorem intAdd_canonical {a b : Integer} (ha : Canonical a) (hb : Canonical b) :
    Canonical (intAdd a b) := by
  by_cases hs : a.sign = b.sign
  · exact intAdd_same_sign_canonical ha hb hs
  · rcases Nat.lt_trichotomy (magNat a.digits) (magNat b.digits) with h | h | h
    · have hcmp : compareMagnitude a b = -1 :=
        ((compareMagnitude_spec a b ha hb).1).mpr h
      have hsub := subtractMagnitude_spec hb ha (le_of_lt h)
      unfold intAdd
      rw [if_neg hs]
      simp only [hcmp]
      rw [if_neg (by norm_num), if_neg (by norm_num)]
      exact normInt_canonical _ hsub.1.1
    · rw [intAdd_diff_sign_eq ha hb hs h]
      exact ⟨by intro d hd; simp at hd, by simp, fun _ => rfl⟩
    · have hcmp : compareMagnitude a b = 1 :=
        ((compareMagnitude_spec a b ha hb).2.2).mpr h
      have hsub := subtractMagnitude_spec ha hb (le_of_lt h)
      unfold intAdd
      rw [if_neg hs]
      simp only [hcmp]
      rw [if_neg (by norm_num), if_pos (by norm_num)]
      exact normInt_canonical _ hsub.1.1

theorem intNeg_canonical {a : Integer} (ha : Canonical a) : Canonical (intNeg a) := by
  unfold intNeg
  by_cases hz : isZero a
  · rw [if_pos hz]
    exact ha
  · rw [if_neg hz]
    refine ⟨ha.1, ha.2.1, ?_⟩
    intro hd
    have hd' : a.digits = [] := hd
    exact absurd (by simp [isZero, hd']) hz

theorem intNeg_digits (a : Integer) : (intNeg a).digits = a.digits := by
  unfold intNeg
  split <;> rfl

theorem intNeg_sign {a : Integer} (hne : a.digits ≠ []) :
    (intNeg a).sign = !a.sign := by
  unfold intNeg
  rw [if_neg (by simpa [isZero] using hne)]

theorem intAbs_canonical {a : Integer} (ha : Canonical a) : Canonical (intAbs a) := by
  unfold intAbs
  split
  · exact intNeg_canonical ha
  · exact ha

theorem intSub_canonical {a b : Integer} (ha : Canonical a) (hb : Canonical b) :
    Canonical (intSub a b) :=
  intAdd_canonical ha (intNeg_canonical hb)

-- ------------------------------------------------------------------
-- Multiplication (Integer::operator*)
-- ------------------------------------------------------------------

/-- Decompose a natural number into base-100 digits, least significant first
(the `while (v > 0) { push v % BASE; v /= BASE; }` loop of `Integer(long long)`).
The first argument is structural-recursion fuel, always called with
`fuel = n ≥ v`. -/
def natToDigitsAux : Nat → Nat → List Nat
  | _, 0 => []
  | 0, _ + 1 => []
  | fuel + 1, v + 1 => ((v + 1) % 100) :: natToDigitsAux fuel ((v + 1) / 100)

def natToDigits (n : Nat) : List Nat := natToDigitsAux n n

theorem natToDigitsAux_fuel (fuel : Nat) : ∀ fuel' v, v ≤ fuel → v ≤ fuel' →
    natToDigitsAux fuel v = natToDigitsAux fuel' v := by
  induction fuel with
  | zero =>
      intro fuel' v hv _
      have : v = 0 := Nat.le_zero.mp hv
      subst this
      cases fuel' <;> rfl
  | succ f ih =>
      intro fuel' v hv hv'
      cases v with
      | zero => cases fuel' <;> rfl
      | succ w =>
          cases fuel' with
          | zero => omega
          | succ f' =>
              show ((w + 1) % 100) :: natToDigitsAux f ((w + 1) / 100)
                  = ((w + 1) % 100) :: natToDigitsAux f' ((w + 1) / 100)
              have hd : (w + 1) / 100 ≤ f := by
                have := Nat.div_le_self (w + 1) 100
                omega
              have hd' : (w + 1) / 100 ≤ f' := by
                have := Nat.div_le_self (w + 1) 100
                omega
              rw [ih f' ((w + 1) / 100) hd hd']

theorem natToDigits_pos {v : Nat} (hv : 0 < v) :
    natToDigits v = (v % 100) :: natToDigits (v / 100) := by
  unfold natToDigits
  cases v with
  | zero => omega
  | succ w =>
      show ((w + 1) % 100) :: natToDigitsAux w ((w + 1) / 100)
          = ((w + 1) % 100) :: natToDigitsAux ((w + 1) / 100) ((w + 1) / 100)
      have hd : (w + 1) / 100 ≤ w := by
        have h1 : (w + 1) / 100 < w + 1 := Nat.div_lt_self (by omega) (by norm_num)
        omega
      rw [natToDigitsAux_fuel w ((w + 1) / 100) ((w + 1) / 100) hd (le_refl _)]

theorem natToDigits_zero : natToDigits 0 = [] := rfl

theorem magNat_natToDigits (n : Nat) : magNat (natToDigits n) = n := by
  induction n using Nat.strong_induction_on with
  | _ n ih =>
      rcases Nat.eq_zero_or_pos n with h | h
      · subst h
        rfl
      · rw [natToDigits_pos h]
        have hlt : n / 100 < n := Nat.div_lt_self h (by norm_num)
        simp only [magNat, ih (n / 100) hlt]
        omega

theorem natToDigits_digitsOk (n : Nat) : DigitsOk (natToDigits n) := by
  induction n using Nat.strong_induction_on with
  | _ n ih =>
      rcases Nat.eq_zero_or_pos n with h | h
      · subst h
        intro d hd
        simp [natToDigits_zero] at hd
      · rw [natToDigits_pos h]
        intro d hd
        rcases List.mem_cons.mp hd with hd | hd
        · subst hd
          exact Nat.mod_lt _ (by norm_num)
        · exact ih (n / 100) (Nat.div_lt_self h (by norm_num)) d hd

theorem natToDigits_ne_nil {n : Nat} (h : 0 < n) : natToDigits n ≠ [] := by
  intro hc
  have := magNat_natToDigits n
  rw [hc] at this
  simp [magNat] at this
  omega

theorem natToDigits_getLast (n : Nat) : (natToDigits n).getLast? ≠ some 0 := by
  induction n using Nat.strong_induction_on with
  | _ n ih =>
      rcases Nat.eq_zero_or_pos n with h | h
      · subst h
        simp [natToDigits_zero]
      · rw [natToDigits_pos h]
        rcases Nat.eq_zero_or_pos (n / 100) with hq | hq
        · rw [hq, natToDigits_zero]
          have : n % 100 ≠ 0 := by
            have := Nat.div_add_mod n 100
            omega
          simpa using this
        · have hne : natToDigits (n / 100) ≠ [] := natToDigits_ne_nil hq
          rcases List.exists_cons_of_ne_nil hne with ⟨y, ys, hys⟩
          rw [hys, List.getLast?_cons_cons, ← hys]
          exact ih (n / 100) (Nat.div_lt_self h (by norm_num))

/-- The carry-flush loop `while (carry) { v = tmp[pos] + carry; ... }` of
`Integer::operator*`.  The `([], carry > 0)` case would index past the end of
the accumulator in the C++ source; it is unreachable there (the product always
fits in `len(a)+len(b)` digits) and is completed value-faithfully here. -/
def propagate : List Nat → Nat → List Nat
  | t, 0 => t
  | [], c + 1 => natToDigits (c + 1)
  | x :: xs, c + 1 => ((x + c + 1) % 100) :: propagate xs ((x + c + 1) / 100)

/-- The inner loop of `Integer::operator*` for one digit `di` of the first
operand: add `di * b` (plus carry) into the accumulator suffix `t`, then flush
the remaining carry. -/
def rowAdd : List Nat → Nat → List Nat → Nat → List Nat
  | t, _, [], c => propagate t c
  | t, di, y :: ys, c =>
      ((t.headD 0 + di * y + c) % 100) ::
        rowAdd t.tail di ys ((t.headD 0 + di * y + c) / 100)

/-- The outer loop of `Integer::operator*`: process each digit of the first
operand at its position `i` in the accumulator. -/
def mulLoop : List Nat → List Nat → Nat → List Nat → List Nat
  | [], _, _, tmp => tmp
  | di :: rest, b, i, tmp =>
      mulLoop rest b (i + 1) (tmp.take i ++ rowAdd (tmp.drop i) di b 0)

/-- `Integer::operator*`: zero if either operand is zero, otherwise schoolbook
accumulation over `len(a)+len(b)` slots, trimmed and constructor-normalized,
with sign the XOR of the operand signs. -/
def intMul (a b : Integer) : Integer :=
  if a.digits.isEmpty || b.digits.isEmpty then ⟨false, []⟩
  else
    normInt ⟨a.sign != b.sign,
      trimBack (mulLoop a.digits b.digits 0
        (List.replicate (a.digits.length + b.digits.length) 0))⟩

theorem propagate_magNat (t : List Nat) (c : Nat) :
    magNat (propagate t c) = magNat t + c := by
  induction t generalizing c with
  | nil =>
      cases c with
      | zero => simp [propagate, magNat]
      | succ c =>
          show magNat (natToDigits (c + 1)) = magNat [] + (c + 1)
          rw [magNat_natToDigits]
          simp [magNat]
  | cons x xs ih =>
      cases c with
      | zero => simp [propagate]
      | succ c =>
          simp only [propagate, magNat, ih]
          omega

theorem propagate_digitsOk {t : List Nat} (ht : DigitsOk t) (c : Nat) :
    DigitsOk (propagate t c) := by
  induction t generalizing c with
  | nil =>
      cases c with
      | zero => exact ht
      | succ c => exact natToDigits_digitsOk _
  | cons x xs ih =>
      cases c with
      | zero => exact ht
      | succ c =>
          intro d hd
          simp only [propagate, List.mem_cons] at hd
          rcases hd with hd | hd
          · omega
          · exact ih (fun z hz => ht z (List.mem_cons_of_mem _ hz)) _ d hd

theorem propagate_length (t : List Nat) (c : Nat) :
    t.length ≤ (propagate t c).length := by
  induction t generalizing c with
  | nil => simp
  | cons x xs ih =>
      cases c with
      | zero => simp [propagate]
      | succ c =>
          simp only [propagate, List.length_cons]
          have := ih ((x + c + 1) / 100)
          omega

theorem rowAdd_magNat (b : List Nat) : ∀ (t : List Nat) (di c : Nat),
    magNat (rowAdd t di b c) = magNat t + di * magNat b + c := by
  induction b with
  | nil =>
      intro t di c
      simp [rowAdd, propagate_magNat, magNat]
  | cons y ys ih =>
      intro t di c
      simp only [rowAdd, magNat, ih]
      have := magNat_headD_tail t
      have hdm := Nat.div_add_mod (t.headD 0 + di * y + c) 100
      ring_nf
      omega

theorem rowAdd_digitsOk (b : List Nat) : ∀ (t : List Nat) (di c : Nat),
    DigitsOk t → DigitsOk (rowAdd t di b c) := by
  induction b with
  | nil =>
      intro t di c ht
      exact propagate_digitsOk ht c
  | cons y ys ih =>
      intro t di c ht
      intro d hd
      simp only [rowAdd, List.mem_cons] at hd
      rcases hd with hd | hd
      · omega
      · exact ih t.tail di _ (fun z hz => ht z (List.mem_of_mem_tail hz)) d hd

theorem rowAdd_length (b : List Nat) : ∀ (t : List Nat) (di c : Nat),
    t.length ≤ (rowAdd t di b c).length := by
  induction b with
  | nil =>
      intro t di c
      exact propagate_length t c
  | cons y ys ih =>
      intro t di c
      cases t with
      | nil => exact Nat.zero_le _
      | cons z zs =>
          simp only [rowAdd, List.length_cons, List.tail_cons, List.headD_cons]
          have := ih zs di ((z + di * y + c) / 100)
          omega

theorem mulLoop_magNat (a : List Nat) : ∀ (b : List Nat) (i : Nat) (tmp : List Nat),
    i + a.length ≤ tmp.length →
    magNat (mulLoop a b i tmp) = magNat tmp + 100 ^ i * (magNat a * magNat b) := by
  induction a with
  | nil =>
      intro b i tmp _
      simp [mulLoop, magNat]
  | cons di rest ih =>
      intro b i tmp hlen
      have hi : i ≤ tmp.length := by
        simp only [List.length_cons] at hlen
        omega
      have htake : (tmp.take i).length = i := by
        rw [List.length_take]
        omega
      have hmagrow : magNat (rowAdd (tmp.drop i) di b 0)
          = magNat (tmp.drop i) + di * magNat b := by
        rw [rowAdd_magNat]
        omega
      have hmagtmp' : magNat (tmp.take i ++ rowAdd (tmp.drop i) di b 0)
          = magNat tmp + 100 ^ i * (di * magNat b) := by
        rw [magNat_append, htake, hmagrow]
        have : magNat (tmp.take i) + 100 ^ i * magNat (tmp.drop i) = magNat tmp := by
          have := magNat_append (tmp.take i) (tmp.drop i)
          rw [htake, List.take_append_drop] at this
          omega
        ring_nf
        ring_nf at this
        omega
      have hlen' : (i + 1) + rest.length
          ≤ (tmp.take i ++ rowAdd (tmp.drop i) di b 0).length := by
        rw [List.length_append, htake]
        have h1 := rowAdd_length b (tmp.drop i) di 0
        rw [List.length_drop] at h1
        simp only [List.length_cons] at hlen
        omega
      simp only [mulLoop]
      rw [ih b (i + 1) _ hlen', hmagtmp']
      simp only [magNat]
      ring

theorem mulLoop_digitsOk (a : List Nat) : ∀ (b : List Nat) (i : Nat) (tmp : List Nat),
    DigitsOk tmp → DigitsOk (mulLoop a b i tmp) := by
  induction a with
  | nil =>
      intro b i tmp ht
      exact ht
  | cons di rest ih =>
      intro b i tmp ht
      simp only [mulLoop]
      apply ih
      intro d hd
      rcases List.mem_append.mp hd with hd | hd
      · exact ht d (List.mem_of_mem_take hd)
      · exact rowAdd_digitsOk b (tmp.drop i) di 0
          (fun z hz => ht z (List.mem_of_mem_drop hz)) d hd

theorem trimBack_digitsOk {l : List Nat} (h : DigitsOk l) : DigitsOk (trimBack l) := by
  intro d hd
  have : d ∈ dropLeadZeros l.reverse := List.mem_reverse.mp (by simpa [trimBack] using hd)
  exact h d (List.mem_reverse.mp (dropLeadZeros_mem this))

theorem magNat_replicate_zero (n : Nat) : magNat (List.replicate n 0) = 0 := by
  induction n with
  | zero => rfl
  | succ m ih => simp [List.replicate_succ, magNat, ih]

theorem intMul_zero_left {a b : Integer} (h : a.digits = []) :
    intMul a b = ⟨false, []⟩ := by
  unfold intMul
  rw [if_pos]
  simp [h]

theorem intMul_zero_right {a b : Integer} (h : b.digits = []) :
    intMul a b = ⟨false, []⟩ := by
  unfold intMul
  rw [if_pos]
  simp [h]

theorem intMul_magNat {a b : Integer} (ha : ¬a.digits = []) (hb : ¬b.digits = []) :
    magNat (intMul a b).digits = magNat a.digits * magNat b.digits := by
  unfold intMul
  rw [if_neg (by simp [ha, hb])]
  rw [normInt_magNat]
  show magNat (trimBack _) = _
  rw [magNat_trimBack]
  rw [mulLoop_magNat a.digits b.digits 0 _ (by simp)]
  rw [magNat_replicate_zero]
  ring

theorem intMul_canonical (a b : Integer) : Canonical (intMul a b) := by
  unfold intMul
  by_cases hz : a.digits.isEmpty || b.digits.isEmpty
  · rw [if_pos hz]
    exact ⟨by intro d hd; simp at hd, by simp, fun _ => rfl⟩
  · rw [if_neg hz]
    apply normInt_canonical
    show DigitsOk (trimBack _)
    apply trimBack_digitsOk
    apply mulLoop_digitsOk
    intro d hd
    rw [List.eq_of_mem_replicate hd]
    norm_num

theorem intMul_sign {a b : Integer} (ha : Canonical a) (hb : Canonical b)
    (hane : a.digits ≠ []) (hbne : b.digits ≠ []) :
    (intMul a b).sign = (a.sign != b.sign) := by
  have hmag : magNat (intMul a b).digits = magNat a.digits * magNat b.digits :=
    intMul_magNat hane hbne
  have hpos : 0 < magNat a.digits * magNat b.digits :=
    Nat.mul_pos (magNat_pos_of_ne_nil ha hane) (magNat_pos_of_ne_nil hb hbne)
  unfold intMul
  rw [if_neg (by simp [hane, hbne])]
  apply normInt_sign
  show magNat (trimBack _) ≠ 0
  rw [magNat_trimBack, mulLoop_magNat a.digits b.digits 0 _ (by simp),
    magNat_replicate_zero]
  simp only [pow_zero, one_mul, Nat.zero_add]
  omega

-- ------------------------------------------------------------------
-- Construction from long long, and decimal rendering
-- ------------------------------------------------------------------

/-- The minimum value of a 64-bit `long long`. -/
def LLMIN : Int := -(2 ^ 63)

/-- `Integer::Integer(long long)`: record the sign, special-case
`LLONG_MIN` (whose magnitude is `LLONG_MAX + 1`), then decompose the
magnitude into base-100 digits. -/
def fromLL (n : Int) : Integer :=
  if n = 0 then ⟨decide (n < 0), []⟩
  else ⟨decide (n < 0), natToDigits (if n = LLMIN then 2 ^ 63 else n.natAbs)⟩

theorem fromLL_eq (n : Int) : fromLL n = ⟨decide (n < 0), natToDigits n.natAbs⟩ := by
  unfold fromLL
  by_cases h0 : n = 0
  · rw [if_pos h0, h0]
    rfl
  · rw [if_neg h0]
    by_cases hm : n = LLMIN
    · rw [if_pos hm, hm]
      norm_num [LLMIN]
    · rw [if_neg hm]

theorem natToDigits_eq_nil_iff (n : Nat) : natToDigits n = [] ↔ n = 0 := by
  constructor
  · intro h
    have := magNat_natToDigits n
    rw [h] at this
    simpa [magNat] using this.symm
  · intro h
    rw [h]
    rfl

theorem fromLL_canonical (n : Int) : Canonical (fromLL n) := by
  rw [fromLL_eq]
  refine ⟨natToDigits_digitsOk _, natToDigits_getLast _, ?_⟩
  intro h
  have hd : natToDigits n.natAbs = [] := h
  have : n.natAbs = 0 := (natToDigits_eq_nil_iff _).mp hd
  have hn : n = 0 := Int.natAbs_eq_zero.mp this
  simp [hn]

theorem fromLL_magNat (n : Int) : magNat (fromLL n).digits = n.natAbs := by
  rw [fromLL_eq]
  exact magNat_natToDigits _

/-- Base-10 digit decomposition, least-significant first, with
structural-recursion fuel (always called with `fuel = n ≥ v`). -/
def decDigitsAux : Nat → Nat → List Nat
  | _, 0 => []
  | 0, _ + 1 => []
  | fuel + 1, v + 1 => ((v + 1) % 10) :: decDigitsAux fuel ((v + 1) / 10)

def decDigitsOf (n : Nat) : List Nat := decDigitsAux n n

theorem decDigitsAux_fuel (fuel : Nat) : ∀ fuel' v, v ≤ fuel → v ≤ fuel' →
    decDigitsAux fuel v = decDigitsAux fuel' v := by
  induction fuel with
  | zero =>
      intro fuel' v hv _
      have : v = 0 := Nat.le_zero.mp hv
      subst this
      cases fuel' <;> rfl
  | succ f ih =>
      intro fuel' v hv hv'
      cases v with
      | zero => cases fuel' <;> rfl
      | succ w =>
          cases fuel' with
          | zero => omega
          | succ f' =>
              show ((w + 1) % 10) :: decDigitsAux f ((w + 1) / 10)
                  = ((w + 1) % 10) :: decDigitsAux f' ((w + 1) / 10)
              have hd : (w + 1) / 10 ≤ f := by
                have := Nat.div_le_self (w + 1) 10
                omega
              have hd' : (w + 1) / 10 ≤ f' := by
                have := Nat.div_le_self (w + 1) 10
                omega
              rw [ih f' ((w + 1) / 10) hd hd']

theorem decDigitsOf_pos {v : Nat} (hv : 0 < v) :
    decDigitsOf v = (v % 10) :: decDigitsOf (v / 10) := by
  unfold decDigitsOf
  cases v with
  | zero => omega
  | succ w =>
      show ((w + 1) % 10) :: decDigitsAux w ((w + 1) / 10)
          = ((w + 1) % 10) :: decDigitsAux ((w + 1) / 10) ((w + 1) / 10)
      have hd : (w + 1) / 10 ≤ w := by
        have h1 : (w + 1) / 10 < w + 1 := Nat.div_lt_self (by omega) (by norm_num)
        omega
      rw [decDigitsAux_fuel w ((w + 1) / 10) ((w + 1) / 10) hd (le_refl _)]

/-- The character for a decimal digit. -/
def digChar (d : Nat) : Char := Char.ofNat (48 + d)

/-- Decimal text of a natural number (the mathematical reading of
"decimal text representation"): most-significant digit first. -/
def natDecString (n : Nat) : String :=
  if n = 0 then "0" else String.mk ((decDigitsOf n).reverse.map digChar)

/-- Decimal text of an integer: optional leading minus sign. -/
def intDecString (n : Int) : String :=
  if n < 0 then "-" ++ natDecString n.natAbs else natDecString n.natAbs

/-- `os << std::setw(2) << std::setfill('0') << d` for a base-100 digit
`0 ≤ d < 100`: exactly two decimal characters. -/
def padTwo (d : Nat) : String := String.mk [digChar (d / 10), digChar (d % 10)]

/-- The body of `operator<<(std::ostream&, const Integer&)` for a non-zero
magnitude, taking the digits most-significant first: the leading digit
unpadded, the remaining digits zero-padded to width two. -/
def renderMag : List Nat → String
  | [] => ""
  | d :: rest => natDecString d ++ String.join (rest.map padTwo)

/-- `operator<<(std::ostream&, const Integer&)`: `"0"` for zero, else an
optional `-` followed by the base-100 digits from most significant down. -/
def renderInt (i : Integer) : String :=
  if i.digits.isEmpty then "0"
  else (if i.sign then "-" else "") ++ renderMag i.digits.reverse

theorem str_mk_append (a b : List Char) :
    String.mk a ++ String.mk b = String.mk (a ++ b) := rfl

theorem str_append_empty (s : String) : s ++ "" = s :=
  String.ext (by simp)

theorem str_join_concat (xs : List String) (s : String) :
    String.join (xs ++ [s]) = String.join xs ++ s := by
  simp only [String.join, List.foldl_append, List.foldl_cons, List.foldl_nil]

theorem renderMag_concat (msf : List Nat) (r : Nat) (h : msf ≠ []) :
    renderMag (msf ++ [r]) = renderMag msf ++ padTwo r := by
  cases msf with
  | nil => exact absurd rfl h
  | cons d rest =>
      show natDecString d ++ String.join ((rest ++ [r]).map padTwo)
          = (natDecString d ++ String.join (rest.map padTwo)) ++ padTwo r
      rw [List.map_append, List.map_singleton, str_join_concat,
        String.append_assoc]

theorem natDecString_step {q r : Nat} (hq : 1 ≤ q) (hr : r < 100) :
    natDecString (100 * q + r) = natDecString q ++ padTwo r := by
  have hv : 0 < 100 * q + r := by omega
  have h1 : decDigitsOf (100 * q + r) = (r % 10) :: decDigitsOf (10 * q + r / 10) := by
    rw [decDigitsOf_pos hv]
    congr 1
    · omega
    · congr 1
      omega
  have h2 : decDigitsOf (10 * q + r / 10) = (r / 10) :: decDigitsOf q := by
    rw [decDigitsOf_pos (by omega)]
    congr 1
    · omega
    · congr 1
      omega
  rw [natDecString, if_neg (by omega), h1, h2]
  simp only [List.reverse_cons, List.map_append, List.map_singleton,
    List.append_assoc, List.singleton_append]
  rw [natDecString, if_neg (by omega)]
  rw [← str_mk_append]
  rfl

theorem renderMag_natToDigits {v : Nat} (hv : 1 ≤ v) :
    renderMag (natToDigits v).reverse = natDecString v := by
  induction v using Nat.strong_induction_on with
  | _ v ih =>
      by_cases hsmall : v < 100
      · have h1 : natToDigits v = [v] := by
          rw [natToDigits_pos (by omega)]
          rw [Nat.mod_eq_of_lt hsmall, Nat.div_eq_of_lt hsmall, natToDigits_zero]
        rw [h1]
        show natDecString v ++ String.join ([].map padTwo) = natDecString v
        simp only [List.map_nil]
        show natDecString v ++ String.join [] = natDecString v
        rw [show String.join [] = "" from rfl, str_append_empty]
      · push_neg at hsmall
        have hq : 1 ≤ v / 100 := by
          have := Nat.div_le_div_right (c := 100) hsmall
          simpa using this
        have hrec : natToDigits v = (v % 100) :: natToDigits (v / 100) :=
          natToDigits_pos (by omega)
        have hne : (natToDigits (v / 100)).reverse ≠ [] := by
          simp only [ne_eq, List.reverse_eq_nil_iff]
          exact natToDigits_ne_nil (by omega)
        rw [hrec, List.reverse_cons,
          renderMag_concat _ _ hne,
          ih (v / 100) (Nat.div_lt_self (by omega) (by norm_num)) hq]
        have : v = 100 * (v / 100) + v % 100 := by omega
        rw [← natDecString_step hq (Nat.mod_lt _ (by norm_num))]
        congr 1
        omega

/-- `fromLL` and stream rendering produce the decimal text of `n`. -/
theorem renderInt_fromLL (n : Int) : renderInt (fromLL n) = intDecString n := by
  rw [fromLL_eq]
  by_cases h0 : n = 0
  · subst h0
    rfl
  · have habs : 0 < n.natAbs := Int.natAbs_pos.mpr h0
    have hne : natToDigits n.natAbs ≠ [] := natToDigits_ne_nil habs
    unfold renderInt
    rw [if_neg (by simpa using hne)]
    show (if decide (n < 0) = true then "-" else "")
          ++ renderMag (natToDigits n.natAbs).reverse = intDecString n
    rw [renderMag_natToDigits habs]
    unfold intDecString
    by_cases hneg : n < 0
    · rw [if_pos hneg]
      simp [hneg]
    · rw [if_neg hneg]
      simp [hneg]

-- ------------------------------------------------------------------
-- Explicit-digit constructors
-- ------------------------------------------------------------------

/-- `Integer::Integer(bool, std::vector<DigitType>)`: validate every digit is
below `BASE` (else `std::invalid_argument`), then normalize. -/
def vecCtor (s : Bool) (d : List Nat) : Except String Integer :=
  if DigitsOk d then Except.ok (normInt ⟨s, d⟩)
  else Except.error "Invalid digit in vector constructor"

/-- `while (m > 1 && d[m-1] == 0) --m` of the `(sign, n, char*)` constructor,
on the reversed list of `char` values. -/
def dropLeadZerosI : List Int → List Int
  | [] => []
  | d :: rest => if d = 0 ∧ rest ≠ [] then dropLeadZerosI rest else d :: rest

def trimBackI (l : List Int) : List Int := (dropLeadZerosI l.reverse).reverse

/-- `Integer::Integer(bool s, int n, const char* d)`.  The array is `none` for
a null pointer, otherwise the list of `char` values (each in `[-128, 127]`);
the first `n` entries are read.  `n <= 0` or a null pointer yield zero; after
stripping trailing zeros a digit fails validation exactly when
`(unsigned char)d[i] >= 100 || d[i] < 0` (the cast is `mod 256`). -/
def charCtor (s : Bool) (n : Int) (arr : Option (List Int)) : Except String Integer :=
  match arr with
  | none => Except.ok ⟨false, []⟩
  | some d =>
      if n ≤ 0 then Except.ok ⟨false, []⟩
      else if trimBackI (d.take n.toNat) = [0] then Except.ok ⟨false, []⟩
      else if ∀ x ∈ trimBackI (d.take n.toNat), ¬(100 ≤ x % 256 ∨ x < 0) then
        Except.ok (normInt ⟨s, (trimBackI (d.take n.toNat)).map Int.toNat⟩)
      else Except.error "Invalid digit in char* constructor"

-- ------------------------------------------------------------------
-- Rational layer (Rational.h / Rational.cpp)
-- ------------------------------------------------------------------

structure Rational where
  num : Integer
  den : Integer
  deriving DecidableEq, Repr

/-- `Rational::normalize()` as implemented in Rational.cpp: make the
denominator positive by negating both parts, and force the canonical zero
`0/1`.  (The header documents a gcd reduction here, but the implementation
performs none.) -/
def ratNormalize (r : Rational) : Rational :=
  let r1 := if isNegative r.den then Rational.mk (intNeg r.num) (intNeg r.den) else r
  if isZero r1.num then ⟨r1.num, fromLL 1⟩ else r1

/-- Outcome of a `Rational` constructor call: a value, or process termination
via `exit(EXIT_FAILURE)` (after printing to `std::cerr`). -/
inductive CtorOutcome where
  | ok (r : Rational)
  | procExit
  deriving DecidableEq, Repr

/-- `Rational::Rational(Integer, Integer)`: a zero denominator prints an error
and calls `exit(EXIT_FAILURE)`; otherwise the value is normalized. -/
def ratCtor (n d : Integer) : CtorOutcome :=
  if isZero d then CtorOutcome.procExit else CtorOutcome.ok (ratNormalize ⟨n, d⟩)

/-- Unary `Rational::operator-`: negate the numerator and renormalize. -/
def ratNeg (r : Rational) : Rational := ratNormalize ⟨intNeg r.num, r.den⟩

/-- `Rational::operator+`: `(ad + bc) / bd` through the normalizing constructor. -/
def ratAdd (a b : Rational) : CtorOutcome :=
  ratCtor (intAdd (intMul a.num b.den) (intMul a.den b.num)) (intMul a.den b.den)

/-- `Rational::operator-`: `(ad - bc) / bd` through the normalizing constructor. -/
def ratSub (a b : Rational) : CtorOutcome :=
  ratCtor (intSub (intMul a.num b.den) (intMul a.den b.num)) (intMul a.den b.den)

/-- `Rational::operator*`: `(ac) / (bd)` through the normalizing constructor. -/
def ratMul (a b : Rational) : CtorOutcome :=
  ratCtor (intMul a.num b.num) (intMul a.den b.den)

/-- `Rational::operator/`: a zero divisor prints an error and exits; otherwise
`(ad) / (bc)` through the normalizing constructor. -/
def ratDiv (a b : Rational) : CtorOutcome :=
  if isZero b.num then CtorOutcome.procExit
  else ratCtor (intMul a.num b.den) (intMul a.den b.num)

/-- `Rational::operator==`: cross multiplication `ad == bc`. -/
def ratEq (a b : Rational) : Bool :=
  intEq (intMul a.num b.den) (intMul a.den b.num)

/-- `operator<<(std::ostream&, const Rational&)`: numerator, then `/den`
unless the denominator equals one. -/
def renderRat (r : Rational) : String :=
  renderInt r.num ++ (if intNe r.den (fromLL 1) = true then "/" ++ renderInt r.den else "")

-- ------------------------------------------------------------------
-- Claim theorems
-- ------------------------------------------------------------------

/-- Claim C1, evaluated against the code at the failing input: constructing
`Rational(Integer(2), Integer(4))` succeeds and returns the value `2/4`
unreduced, so `gcd(|numerator|, denominator) = 2 ≠ 1`.  The implementation's
`Rational::normalize` never divides by the gcd, contradicting the
normal-form invariant documented in `Rational.h`. -/
theorem c1_constructed_rational_not_reduced :
    ratCtor (fromLL 2) (fromLL 4) = CtorOutcome.ok ⟨fromLL 2, fromLL 4⟩ ∧
    Nat.gcd (magNat (fromLL 2).digits) (magNat (fromLL 4).digits) = 2 := by
  decide

/-- Claim C2, evaluated against the code at the failing input: the values
constructed from `(2,4)` and `(1,2)` compare equal under `operator==`
(cross multiplication), but they do not render identically: `(2,4)` renders
`"2/4"` while `(1,2)` renders `"1/2"`, because the missing gcd reduction
leaves `2/4` unreduced. -/
theorem c2_scaled_rationals_render_differently :
    ratCtor (fromLL 2) (fromLL 4) = CtorOutcome.ok ⟨fromLL 2, fromLL 4⟩ ∧
    ratCtor (fromLL 1) (fromLL 2) = CtorOutcome.ok ⟨fromLL 1, fromLL 2⟩ ∧
    ratEq ⟨fromLL 2, fromLL 4⟩ ⟨fromLL 1, fromLL 2⟩ = true ∧
    renderRat ⟨fromLL 2, fromLL 4⟩ = "2/4" ∧
    renderRat ⟨fromLL 1, fromLL 2⟩ = "1/2" := by
  decide

/-- Claim C3 as stated is false at a concrete input: `Rational(1, 0)` does not
produce any caller-visible recoverable error — the constructor prints to
`std::cerr` and terminates the process via `exit(EXIT_FAILURE)`, modelled by
the `procExit` outcome (no error value the consumer could handle exists). -/
theorem c3_claim_counterexample :
    ratCtor (fromLL 1) (fromLL 0) = CtorOutcome.procExit := by
  decide

/-- Claim C3, amended: for every numerator, constructing a `Rational` with a
zero denominator terminates the process (`exit(EXIT_FAILURE)` after printing
an error message), and any non-zero denominator constructs the normalized
value. -/
theorem c3_zero_denominator_exits (n d : Integer) :
    (isZero d = true → ratCtor n d = CtorOutcome.procExit) ∧
    (isZero d = false → ratCtor n d = CtorOutcome.ok (ratNormalize ⟨n, d⟩)) := by
  constructor
  · intro h
    simp [ratCtor, h]
  · intro h
    simp [ratCtor, h]

theorem c3_zero_denominator_exits_witness :
    isZero (fromLL 0) = true ∧
    ratCtor (fromLL 7) (fromLL 0) = CtorOutcome.procExit ∧
    isZero (fromLL 5) = false ∧
    ratCtor (fromLL 7) (fromLL 5) = CtorOutcome.ok (ratNormalize ⟨fromLL 7, fromLL 5⟩) :=
  ⟨by decide, (c3_zero_denominator_exits (fromLL 7) (fromLL 0)).1 (by decide),
   by decide, (c3_zero_denominator_exits (fromLL 7) (fromLL 5)).2 (by decide)⟩

/-- Claim C5: for every `long long` value `n` (the full 64-bit range,
including `LLONG_MIN`), constructing an `Integer` from `n` and rendering it
with the stream output operator yields exactly the decimal text of `n`. -/
theorem c5_fromLL_renders_decimal (n : Int) (_hlo : LLMIN ≤ n) (_hhi : n < 2 ^ 63) :
    renderInt (fromLL n) = intDecString n :=
  renderInt_fromLL n

theorem c5_fromLL_renders_decimal_witness :
    LLMIN ≤ LLMIN ∧ LLMIN < 2 ^ 63 ∧
    renderInt (fromLL LLMIN) = intDecString LLMIN ∧
    renderInt (fromLL LLMIN) = "-9223372036854775808" :=
  ⟨le_refl _, by decide,
   c5_fromLL_renders_decimal LLMIN (le_refl _) (by decide), by decide⟩

/-- Claim C6: sign/magnitude case analysis of `Integer::operator+` on
canonical operands.  Equal signs add the magnitudes under that sign; differing
signs subtract the smaller magnitude from the larger, taking the sign of the
larger operand; equal magnitudes of opposite sign give the canonical zero. -/
theorem c6_addition_sign_magnitude (a b : Integer)
    (ha : Canonical a) (hb : Canonical b) :
    (a.sign = b.sign →
      (intAdd a b).sign = a.sign ∧
      magNat (intAdd a b).digits = magNat a.digits + magNat b.digits) ∧
    (¬a.sign = b.sign → magNat b.digits < magNat a.digits →
      (intAdd a b).sign = a.sign ∧
      magNat (intAdd a b).digits = magNat a.digits - magNat b.digits) ∧
    (¬a.sign = b.sign → magNat a.digits < magNat b.digits →
      (intAdd a b).sign = b.sign ∧
      magNat (intAdd a b).digits = magNat b.digits - magNat a.digits) ∧
    (¬a.sign = b.sign → magNat a.digits = magNat b.digits →
      intAdd a b = ⟨false, []⟩) := by
  refine ⟨fun hs => intAdd_same_sign ha hb hs,
    fun hs hgt => intAdd_diff_sign_gt ha hb hs hgt,
    fun hs hlt => intAdd_diff_sign_lt ha hb hs hlt,
    fun hs heq => intAdd_diff_sign_eq ha hb hs heq⟩

theorem c6_addition_sign_magnitude_witness :
    Canonical (fromLL 95) ∧ Canonical (fromLL (-7)) ∧
    ¬(fromLL 95).sign = (fromLL (-7)).sign ∧
    magNat (fromLL (-7)).digits < magNat (fromLL 95).digits ∧
    (intAdd (fromLL 95) (fromLL (-7))).sign = (fromLL 95).sign ∧
    magNat (intAdd (fromLL 95) (fromLL (-7))).digits
      = magNat (fromLL 95).digits - magNat (fromLL (-7)).digits :=
  ⟨by decide, by decide, by decide, by decide,
   ((c6_addition_sign_magnitude (fromLL 95) (fromLL (-7)) (by decide)
      (by decide)).2.1 (by decide) (by decide)).1,
   ((c6_addition_sign_magnitude (fromLL 95) (fromLL (-7)) (by decide)
      (by decide)).2.1 (by decide) (by decide)).2⟩

/-- Claim C7: `Integer::operator*` on canonical operands.  If either operand
is zero the result is the canonical zero; otherwise the result's magnitude is
the product of the operand magnitudes (the value computed by the schoolbook
base-100 accumulation) and its sign is the XOR of the operand signs; in
particular `Integer(7) * Integer(-6)` renders `"-42"`. -/
theorem c7_multiplication (a b : Integer) (ha : Canonical a) (hb : Canonical b) :
    (a.digits = [] ∨ b.digits = [] → intMul a b = ⟨false, []⟩) ∧
    (a.digits ≠ [] → b.digits ≠ [] →
      (intMul a b).sign = (a.sign != b.sign) ∧
      magNat (intMul a b).digits = magNat a.digits * magNat b.digits) ∧
    renderInt (intMul (fromLL 7) (fromLL (-6))) = "-42" := by
  refine ⟨?_, ?_, by decide⟩
  · intro h
    rcases h with h | h
    · exact intMul_zero_left h
    · exact intMul_zero_right h
  · intro hane hbne
    exact ⟨intMul_sign ha hb hane hbne, intMul_magNat hane hbne⟩

theorem c7_multiplication_witness :
    Canonical (fromLL 7) ∧ Canonical (fromLL (-6)) ∧
    (fromLL 7).digits ≠ [] ∧ (fromLL (-6)).digits ≠ [] ∧
    (intMul (fromLL 7) (fromLL (-6))).sign = ((fromLL 7).sign != (fromLL (-6)).sign) ∧
    magNat (intMul (fromLL 7) (fromLL (-6))).digits
      = magNat (fromLL 7).digits * magNat (fromLL (-6)).digits ∧
    renderInt (intMul (fromLL 7) (fromLL (-6))) = "-42" :=
  ⟨by decide, by decide, by decide, by decide,
   ((c7_multiplication (fromLL 7) (fromLL (-6)) (by decide) (by decide)).2.1
      (by decide) (by decide)).1,
   ((c7_multiplication (fromLL 7) (fromLL (-6)) (by decide) (by decide)).2.1
      (by decide) (by decide)).2,
   (c7_multiplication (fromLL 7) (fromLL (-6)) (by decide) (by decide)).2.2⟩

/-- Claim C10: `Integer::subtractMagnitude` is only invoked by addition (and
hence subtraction) with the larger-magnitude operand first.  Under the
precondition `|a| >= |b|` (i.e. `compareMagnitude(a,b) >= 0`) the final borrow
is zero and the computed magnitude is exactly `|a| - |b|` — no wrapped
magnitude; consequently the differing-sign branch of `operator+` always
produces magnitude `max - min`. -/
theorem c10_subtract_magnitude_safe (a b : Integer)
    (ha : Canonical a) (hb : Canonical b) :
    (0 ≤ compareMagnitude a b →
      (subDigits a.digits b.digits 0).2 = 0 ∧
      magNat (subtractMagnitude a b).digits
        = magNat a.digits - magNat b.digits) ∧
    (¬a.sign = b.sign →
      magNat (intAdd a b).digits + min (magNat a.digits) (magNat b.digits)
        = max (magNat a.digits) (magNat b.digits)) := by
  constructor
  · intro hge
    have hle : magNat b.digits ≤ magNat a.digits := by
      rcases compareMagnitude_vals a b with h | h | h
      · rw [h] at hge
        omega
      · rw [compareMagnitude_eq h]
      · exact le_of_lt (compareMagnitude_gt ha hb h)
    have := subtractMagnitude_spec ha hb hle
    exact ⟨this.2.2, this.2.1⟩
  · intro hs
    rcases Nat.lt_trichotomy (magNat a.digits) (magNat b.digits) with h | h | h
    · have := (intAdd_diff_sign_lt ha hb hs h).2
      rw [this]
      omega
    · have := intAdd_diff_sign_eq ha hb hs h
      rw [this]
      show magNat [] + _ = _
      simp [magNat]
      omega
    · have := (intAdd_diff_sign_gt ha hb hs h).2
      rw [this]
      omega

theorem c10_subtract_magnitude_safe_witness :
    Canonical (fromLL 300) ∧ Canonical (fromLL (-42)) ∧
    0 ≤ compareMagnitude (fromLL 300) (fromLL (-42)) ∧
    (subDigits (fromLL 300).digits (fromLL (-42)).digits 0).2 = 0 ∧
    magNat (subtractMagnitude (fromLL 300) (fromLL (-42))).digits
      = magNat (fromLL 300).digits - magNat (fromLL (-42)).digits ∧
    magNat (intAdd (fromLL 300) (fromLL (-42))).digits
      + min (magNat (fromLL 300).digits) (magNat (fromLL (-42)).digits)
      = max (magNat (fromLL 300).digits) (magNat (fromLL (-42)).digits) :=
  ⟨by decide, by decide, by decide,
   ((c10_subtract_magnitude_safe (fromLL 300) (fromLL (-42)) (by decide)
      (by decide)).1 (by decide)).1,
   ((c10_subtract_magnitude_safe (fromLL 300) (fromLL (-42)) (by decide)
      (by decide)).1 (by decide)).2,
   (c10_subtract_magnitude_safe (fromLL 300) (fromLL (-42)) (by decide)
      (by decide)).2 (by decide)⟩

-- ------------------------------------------------------------------
-- Constructor canonicity (for C4, C9)
-- ------------------------------------------------------------------

theorem dropLeadZerosI_mem {m : List Int} {x : Int} (hx : x ∈ dropLeadZerosI m) :
    x ∈ m := by
  induction m with
  | nil => simp [dropLeadZerosI] at hx
  | cons d rest ih =>
      by_cases h : d = 0 ∧ rest ≠ []
      · rw [dropLeadZerosI, if_pos h] at hx
        exact List.mem_cons_of_mem _ (ih hx)
      · rw [dropLeadZerosI, if_neg h] at hx
        exact hx

theorem trimBackI_mem {l : List Int} {x : Int} (hx : x ∈ trimBackI l) : x ∈ l := by
  have : x ∈ dropLeadZerosI l.reverse := List.mem_reverse.mp (by simpa [trimBackI] using hx)
  exact List.mem_reverse.mp (dropLeadZerosI_mem this)

theorem char_check_iff {x : Int} (h1 : -128 ≤ x) (h2 : x ≤ 127) :
    (100 ≤ x % 256 ∨ x < 0) ↔ ¬(0 ≤ x ∧ x < 100) := by
  omega

theorem zero_canonical : Canonical ⟨false, []⟩ := by decide

theorem vecCtor_canonical {s : Bool} {d : List Nat} {i : Integer}
    (h : vecCtor s d = Except.ok i) : Canonical i := by
  unfold vecCtor at h
  split at h
  · rename_i hok
    injection h with h'
    rw [← h']
    exact normInt_canonical _ hok
  · cases h

theorem charCtor_none_canonical {s : Bool} {n : Int} {i : Integer}
    (h : charCtor s n none = Except.ok i) : Canonical i := by
  unfold charCtor at h
  injection h with h'
  rw [← h']
  exact zero_canonical

theorem charCtor_canonical {s : Bool} {n : Int} {l : List Int} {i : Integer}
    (hr : ∀ x ∈ l, -128 ≤ x ∧ x ≤ 127)
    (h : charCtor s n (some l) = Except.ok i) : Canonical i := by
  simp only [charCtor] at h
  by_cases hn : n ≤ 0
  · rw [if_pos hn] at h
    injection h with h'
    rw [← h']
    exact zero_canonical
  · rw [if_neg hn] at h
    by_cases hz0 : trimBackI (l.take n.toNat) = [0]
    · rw [if_pos hz0] at h
      injection h with h'
      rw [← h']
      exact zero_canonical
    · rw [if_neg hz0] at h
      by_cases hch : ∀ x ∈ trimBackI (l.take n.toNat), ¬(100 ≤ x % 256 ∨ x < 0)
      · rw [if_pos hch] at h
        injection h with h'
        rw [← h']
        apply normInt_canonical
        intro dd hd
        rcases List.mem_map.mp hd with ⟨x, hxmem, hxeq⟩
        have hxl : x ∈ l := List.mem_of_mem_take (trimBackI_mem hxmem)
        have hxr := hr x hxl
        have hgood : ¬(100 ≤ x % 256 ∨ x < 0) := hch x hxmem
        have hx100 : 0 ≤ x ∧ x < 100 := by
          by_contra hc
          exact hgood ((char_check_iff hxr.1 hxr.2).mpr hc)
        rw [← hxeq]
        omega
      · rw [if_neg hch] at h
        simp at h

/-- Claim C4: every `Integer` exposed to a caller — results of `operator+`,
`operator-` (binary and unary), `operator*`, `abs`, and of every constructor —
is in canonical form: digits in `[0,100)` with no trailing (most-significant)
zero digit, the value is zero exactly when the digit vector is empty, and the
zero value carries a non-negative (`false`) sign flag. -/
theorem c4_canonical_form (a b : Integer) (ha : Canonical a) (hb : Canonical b) :
    Canonical (intAdd a b) ∧ Canonical (intSub a b) ∧ Canonical (intMul a b) ∧
    Canonical (intNeg a) ∧ Canonical (intAbs a) ∧
    (∀ n : Int, Canonical (fromLL n)) ∧
    (∀ (s : Bool) (d : List Nat) (i : Integer),
      vecCtor s d = Except.ok i → Canonical i) ∧
    (∀ (s : Bool) (n : Int) (l : List Int) (i : Integer),
      (∀ x ∈ l, -128 ≤ x ∧ x ≤ 127) →
      charCtor s n (some l) = Except.ok i → Canonical i) ∧
    (∀ (s : Bool) (n : Int) (i : Integer),
      charCtor s n none = Except.ok i → Canonical i) ∧
    (magNat a.digits = 0 ↔ a.digits = []) ∧
    (a.digits = [] → a.sign = false) :=
  ⟨intAdd_canonical ha hb, intSub_canonical ha hb, intMul_canonical a b,
   intNeg_canonical ha, intAbs_canonical ha,
   fromLL_canonical,
   fun _ _ _ h => vecCtor_canonical h,
   fun _ _ _ _ hr h => charCtor_canonical hr h,
   fun _ _ _ h => charCtor_none_canonical h,
   ⟨fun h => canonical_digits_of_magNat_zero ha h, fun h => by rw [h]; rfl⟩,
   ha.2.2⟩

theorem c4_canonical_form_witness :
    Canonical (fromLL 2) ∧ Canonical (fromLL (-3)) ∧
    Canonical (intAdd (fromLL 2) (fromLL (-3))) ∧
    Canonical (intMul (fromLL 2) (fromLL (-3))) :=
  ⟨by decide, by decide,
   (c4_canonical_form (fromLL 2) (fromLL (-3)) (by decide) (by decide)).1,
   (c4_canonical_form (fromLL 2) (fromLL (-3)) (by decide) (by decide)).2.2.1⟩

/-- Claim C9: the `(sign, n, char*)` constructor yields the canonical zero
(with no error) whenever `n <= 0` or the pointer is null; for a real array of
`char` values (so each entry in `[-128,127]`) with `n` entries available, it
raises `InvalidDigit` (`std::invalid_argument`) exactly when some entry among
the first `n`, after trailing zeros are stripped, lies outside `[0,100)`. -/
theorem c9_char_ctor_edge_cases (s : Bool) (n : Int) (d : List Int) :
    (charCtor s n none = Except.ok ⟨false, []⟩) ∧
    (n ≤ 0 → charCtor s n (some d) = Except.ok ⟨false, []⟩) ∧
    ((∀ x ∈ d, -128 ≤ x ∧ x ≤ 127) →
      ((∃ e, charCtor s n (some d) = Except.error e) ↔
        ∃ x ∈ trimBackI (d.take n.toNat), ¬(0 ≤ x ∧ x < 100))) := by
  refine ⟨rfl, ?_, ?_⟩
  · intro hn
    simp only [charCtor]
    rw [if_pos hn]
  · intro hr
    simp only [charCtor]
    by_cases hn : n ≤ 0
    · rw [if_pos hn]
      constructor
      · rintro ⟨e, he⟩
        cases he
      · rintro ⟨x, hx, _⟩
        have : n.toNat = 0 := by omega
        rw [this] at hx
        simp [trimBackI, dropLeadZerosI] at hx
    · rw [if_neg hn]
      by_cases hz0 : trimBackI (d.take n.toNat) = [0]
      · rw [if_pos hz0]
        constructor
        · rintro ⟨e, he⟩
          cases he
        · rintro ⟨x, hx, hbad⟩
          exfalso
          rw [hz0] at hx
          simp at hx
          subst hx
          exact hbad (by norm_num)
      · rw [if_neg hz0]
        by_cases hch : ∀ x ∈ trimBackI (d.take n.toNat), ¬(100 ≤ x % 256 ∨ x < 0)
        · rw [if_pos hch]
          constructor
          · rintro ⟨e, he⟩
            cases he
          · rintro ⟨x, hx, hbad⟩
            exfalso
            have hxr := hr x (List.mem_of_mem_take (trimBackI_mem hx))
            exact (hch x hx) ((char_check_iff hxr.1 hxr.2).mpr hbad)
        · rw [if_neg hch]
          constructor
          · intro _
            push_neg at hch
            rcases hch with ⟨x, hx, hbad⟩
            refine ⟨x, hx, ?_⟩
            have hxr := hr x (List.mem_of_mem_take (trimBackI_mem hx))
            exact (char_check_iff hxr.1 hxr.2).mp (by tauto)
          · intro _
            exact ⟨_, rfl⟩

theorem c9_char_ctor_edge_cases_witness :
    (charCtor false 2 none = Except.ok ⟨false, []⟩) ∧
    (charCtor false (-1) (some [(120 : Int)]) = Except.ok ⟨false, []⟩) ∧
    ((∃ e, charCtor false 2 (some [(5 : Int), 120]) = Except.error e) ↔
      ∃ x ∈ trimBackI ([(5 : Int), 120].take (2 : Int).toNat), ¬(0 ≤ x ∧ x < 100)) :=
  ⟨(c9_char_ctor_edge_cases false 2 [(5 : Int), 120]).1,
   (c9_char_ctor_edge_cases false (-1) [(120 : Int)]).2.1 (by norm_num),
   (c9_char_ctor_edge_cases false 2 [(5 : Int), 120]).2.2 (by decide)⟩

-- ------------------------------------------------------------------
-- Ordering (C8)
-- ------------------------------------------------------------------

theorem isZero_false_of_ne {i : Integer} (h : i.digits ≠ []) : isZero i = false := by
  simp [isZero, h]

theorem sign_true_ne_nil {i : Integer} (hc : Canonical i) (hs : i.sign = true) :
    i.digits ≠ [] := by
  intro h
  rw [hc.2.2 h] at hs
  cases hs

theorem trichotomy_same_sign (a b : Integer) (ha : Canonical a) (hb : Canonical b)
    (hs : a.sign = b.sign) :
    (intLt a b = true ∧ intEq a b = false ∧ intGt a b = false) ∨
    (intLt a b = false ∧ intEq a b = true ∧ intGt a b = false) ∨
    (intLt a b = false ∧ intEq a b = false ∧ intGt a b = true) := by
  by_cases hz : a.digits = [] ∧ b.digits = []
  · have hsa : a.sign = false := ha.2.2 hz.1
    have hsb : b.sign = false := hb.2.2 hz.2
    refine Or.inr (Or.inl ⟨?_, ?_, ?_⟩)
    · simp [intLt, hsa, hsb, isZero, hz.1, hz.2]
    · simp [intEq, isZero, hz.1, hz.2]
    · simp [intGt, intLt, hsa, hsb, isZero, hz.1, hz.2]
  · have hzz : (isZero a && isZero b) = false := by
      rcases Decidable.not_and_iff_or_not.mp hz with h | h
      · simp [isZero_false_of_ne h]
      · simp [isZero_false_of_ne h]
    have hzz' : (isZero b && isZero a) = false := by
      rcases Decidable.not_and_iff_or_not.mp hz with h | h
      · simp [isZero_false_of_ne h]
      · simp [isZero_false_of_ne h]
    rcases compareMagnitude_vals a b with hcmp | hcmp | hcmp
    · have hmaglt := compareMagnitude_lt ha hb hcmp
      have hne : a.digits ≠ b.digits := by
        intro hc
        rw [hc] at hmaglt
        omega
      have hcmpba : compareMagnitude b a = 1 := by
        have := compareMagnitude_antisymm b a
        rw [hcmp] at this
        simpa using this
      cases hsgn : a.sign with
      | false =>
          have hsb' : b.sign = false := by rw [← hs, hsgn]
          exact Or.inl ⟨by simp [intLt, hsgn, hsb', hzz, hcmp],
            by simp [intEq, hsgn, hsb', hzz, hne],
            by simp [intGt, intLt, hsgn, hsb', hzz', hcmpba]⟩
      | true =>
          have hsb' : b.sign = true := by rw [← hs, hsgn]
          exact Or.inr (Or.inr ⟨by simp [intLt, hsgn, hsb', hzz, hcmp],
            by simp [intEq, hsgn, hsb', hzz, hne],
            by simp [intGt, intLt, hsgn, hsb', hzz', hcmpba]⟩)
    · have hdeq : a.digits = b.digits := compareMagnitude_eq hcmp
      have hcmpba : compareMagnitude b a = 0 := by
        have := compareMagnitude_antisymm b a
        rw [hcmp] at this
        simpa using this
      cases hsgn : a.sign with
      | false =>
          have hsb' : b.sign = false := by rw [← hs, hsgn]
          exact Or.inr (Or.inl ⟨by simp [intLt, hsgn, hsb', hzz, hcmp],
            by simp [intEq, hsgn, hsb', hzz, hdeq],
            by simp [intGt, intLt, hsgn, hsb', hzz', hcmpba]⟩)
      | true =>
          have hsb' : b.sign = true := by rw [← hs, hsgn]
          exact Or.inr (Or.inl ⟨by simp [intLt, hsgn, hsb', hzz, hcmp],
            by simp [intEq, hsgn, hsb', hzz, hdeq],
            by simp [intGt, intLt, hsgn, hsb', hzz', hcmpba]⟩)
    · have hmaggt := compareMagnitude_gt ha hb hcmp
      have hne : a.digits ≠ b.digits := by
        intro hc
        rw [hc] at hmaggt
        omega
      have hcmpba : compareMagnitude b a = -1 := by
        have := compareMagnitude_antisymm b a
        rw [hcmp] at this
        simpa using this
      cases hsgn : a.sign with
      | false =>
          have hsb' : b.sign = false := by rw [← hs, hsgn]
          exact Or.inr (Or.inr ⟨by simp [intLt, hsgn, hsb', hzz, hcmp],
            by simp [intEq, hsgn, hsb', hzz, hne],
            by simp [intGt, intLt, hsgn, hsb', hzz', hcmpba]⟩)
      | true =>
          have hsb' : b.sign = true := by rw [← hs, hsgn]
          exact Or.inl ⟨by simp [intLt, hsgn, hsb', hzz, hcmp],
            by simp [intEq, hsgn, hsb', hzz, hne],
            by simp [intGt, intLt, hsgn, hsb', hzz', hcmpba]⟩

/-- Claim C8: the comparison operators on canonical values are a total order
consistent with sign and magnitude — exactly one of `a < b`, `a == b`, `a > b`
holds, `a < b` iff `b > a` (definitionally), a negative value is less than
every non-negative value, two zeros compare equal regardless of the stored
sign bit, and of two negative values the one with larger magnitude is
smaller. -/
theorem c8_ordering_total (a b : Integer) :
    (Canonical a → Canonical b →
      ((intLt a b = true ∧ intEq a b = false ∧ intGt a b = false) ∨
       (intLt a b = false ∧ intEq a b = true ∧ intGt a b = false) ∨
       (intLt a b = false ∧ intEq a b = false ∧ intGt a b = true)) ∧
      (isNegative a = true → isNegative b = false → intLt a b = true) ∧
      (a.sign = true → b.sign = true → magNat b.digits < magNat a.digits →
        intLt a b = true)) ∧
    (intLt a b = intGt b a) ∧
    (a.digits = [] → b.digits = [] → intEq a b = true) := by
  refine ⟨?_, rfl, ?_⟩
  · intro ha hb
    refine ⟨?_, ?_, ?_⟩
    · by_cases hs : a.sign = b.sign
      · exact trichotomy_same_sign a b ha hb hs
      · rcases Bool.eq_false_or_eq_true a.sign with hsa | hsa <;>
          rcases Bool.eq_false_or_eq_true b.sign with hsb | hsb
        · exact absurd (hsa.trans hsb.symm) hs
        · have hane := sign_true_ne_nil ha hsa
          have haz : isZero a = false := isZero_false_of_ne hane
          exact Or.inl ⟨by simp [intLt, hsa, hsb],
            by simp [intEq, hsa, hsb, haz],
            by simp [intGt, intLt, hsa, hsb]⟩
        · have hbne := sign_true_ne_nil hb hsb
          have hbz : isZero b = false := isZero_false_of_ne hbne
          exact Or.inr (Or.inr ⟨by simp [intLt, hsa, hsb],
            by simp [intEq, hsa, hsb, hbz],
            by simp [intGt, intLt, hsa, hsb]⟩)
        · exact absurd (hsa.trans hsb.symm) hs
    · intro hna hnb
      have h1 : a.sign = true ∧ ¬a.digits = [] := by
        simpa [isNegative, isZero] using hna
      have h2 : b.sign = false := by
        simp [isNegative, isZero] at hnb
        by_cases hbz : b.digits = []
        · exact hb.2.2 hbz
        · rcases Bool.eq_false_or_eq_true b.sign with h | h
          · exact absurd (hnb h) hbz
          · exact h
      simp [intLt, h1.1, h2]
    · intro hsa hsb hmag
      have hane := sign_true_ne_nil ha hsa
      have hcmp : compareMagnitude a b = 1 :=
        (compareMagnitude_spec a b ha hb).2.2.mpr hmag
      simp [intLt, hsa, hsb, isZero_false_of_ne hane, hcmp]
  · intro ha0 hb0
    simp [intEq, isZero, ha0, hb0]

theorem c8_ordering_total_witness :
    Canonical (fromLL (-7)) ∧ Canonical (fromLL 7) ∧
    ((intLt (fromLL (-7)) (fromLL 7) = true ∧ intEq (fromLL (-7)) (fromLL 7) = false ∧
        intGt (fromLL (-7)) (fromLL 7) = false) ∨
     (intLt (fromLL (-7)) (fromLL 7) = false ∧ intEq (fromLL (-7)) (fromLL 7) = true ∧
        intGt (fromLL (-7)) (fromLL 7) = false) ∨
     (intLt (fromLL (-7)) (fromLL 7) = false ∧ intEq (fromLL (-7)) (fromLL 7) = false ∧
        intGt (fromLL (-7)) (fromLL 7) = true)) ∧
    (isNegative (fromLL (-7)) = true → isNegative (fromLL 7) = false →
      intLt (fromLL (-7)) (fromLL 7) = true) ∧
    intLt (fromLL (-9)) (fromLL (-8)) = true :=
  ⟨by decide, by decide,
   ((c8_ordering_total (fromLL (-7)) (fromLL 7)).1 (by decide) (by decide)).1,
   ((c8_ordering_total (fromLL (-7)) (fromLL 7)).1 (by decide) (by decide)).2.1,
   ((c8_ordering_total (fromLL (-9)) (fromLL (-8))).1 (by decide) (by decide)).2.2
     (by decide) (by decide) (by decide)⟩
